import Mathlib

/-! Verification development for the `kv_memoize` library (`src/mod.ts`).

The library exports one function, `kvMemoize`, which wraps an async function
with a Deno KV-backed cache plus an in-process map that coalesces concurrent
calls sharing the same serialized argument list.  This file gives a shallow
embedding of the two source functions:

* `stringifyKey` (src/mod.ts lines 121-125): serializes a `Deno.KvKey` by
  JSON-stringifying each element (after converting `Uint8Array`s to plain
  arrays of integers) and joining the results with `"."`.
* `kvMemoize` (src/mod.ts lines 72-119): the per-call factory body
  (lines 86-113) is embedded as `runFactory`, the in-flight coalescing map
  (lines 78-84, 114-117) as `invoke`/`settle` over an `EngineState`, and
  the backing store as an explicit function from composite keys to values.
-/

namespace KvMemoize

/-- Model of one element of a `Deno.KvKey` as accepted by the library.
`Deno.KvKey` elements are booleans, numbers (doubles), strings, byte
sequences (`Uint8Array`), and bigints.  A number is modelled by the three
parts of the ECMAScript string form of a finite double: its integer part,
the digits of its (possibly empty) fractional part, and an optional
decimal exponent.  Plain decimal forms such as `1.5` have no exponent
part; exponent forms, which ECMAScript produces for magnitudes of at
least 1e21 or below 1e-6, such as `1.5e+21` or `1e-7`, carry the signed
exponent (`num 1 [5] (some 21)` and `num 1 [] (some (-7))`).  Negative
numbers with a zero integer part are outside the model.  A byte sequence
is a list of bytes. -/
inductive KvKeyPart where
  | bool (b : Bool)
  | num (i : Int) (frac : List (Fin 10)) (exp : Option Int)
  | str (s : List Char)
  | bytes (bs : List (Fin 256))
  | bigint (n : Int)
  deriving DecidableEq

/-- Decides whether a key element is a bigint.  `JSON.stringify` throws a
`TypeError` on bigints, which is the only way `stringifyKey` can fail. -/
def isBigintPart : KvKeyPart → Bool
  | .bigint _ => true
  | _ => false

/-- Decides whether any element of a key is a bigint. -/
def hasBigint (key : List KvKeyPart) : Bool :=
  key.any isBigintPart

/-- Decimal digit sequence of a natural number, most significant digit
first, as produced by `JSON.stringify` on a non-negative integer. -/
def natChars (n : Nat) : List Char :=
  if n = 0 then ['0'] else ((Nat.digits 10 n).map Nat.digitChar).reverse

/-- Decimal string of an integer as produced by `JSON.stringify`. -/
def intChars : Int → List Char
  | .ofNat n => natChars n
  | .negSucc n => '-' :: natChars (n + 1)

/-- Fractional part of a number's decimal string: empty for an integer,
otherwise a dot followed by the fraction digits. -/
def fracChars : List (Fin 10) → List Char
  | [] => []
  | ds => '.' :: ds.map (fun d => Nat.digitChar d.val)

/-- Exponent suffix of the ECMAScript string form of a double: empty in
plain decimal form; in exponent form the letter e, an explicit sign, and
the decimal exponent, as in "e+21" of "1.5e+21" and "e-7" of "1e-7". -/
def expChars : Option Int → List Char
  | none => []
  | some k => 'e' :: (if 0 ≤ k then '+' :: natChars k.toNat else '-' :: natChars (-k).toNat)

/-- String form of a number with integer part `i`, fraction digits
`frac`, and optional exponent `exp`, as produced by `JSON.stringify`
(for example `1.5` gives "1.5" and `1.5e21` gives "1.5e+21"). -/
def numChars (i : Int) (frac : List (Fin 10)) (exp : Option Int) : List Char :=
  intChars i ++ fracChars frac ++ expChars exp

/-- Escape sequence that `JSON.stringify` emits for one character of a
string: quote and backslash get a backslash escape, the named control
characters get two-character escapes, other control characters get a
`\u00XX` hex escape, and every other character is emitted verbatim. -/
def escChar (c : Char) : List Char :=
  if c = '"' then ['\\', '"']
  else if c = '\\' then ['\\', '\\']
  else if c = Char.ofNat 8 then ['\\', 'b']
  else if c = Char.ofNat 12 then ['\\', 'f']
  else if c = Char.ofNat 10 then ['\\', 'n']
  else if c = Char.ofNat 13 then ['\\', 'r']
  else if c = Char.ofNat 9 then ['\\', 't']
  else if c.toNat < 32 then
    ['\\', 'u', '0', '0', Nat.digitChar (c.toNat / 16), Nat.digitChar (c.toNat % 16)]
  else [c]

/-- Body of the JSON serialization of a string (without the delimiting
quotes). -/
def escapeChars (s : List Char) : List Char :=
  (s.map escChar).flatten

/-- JSON serialization of a string, including the delimiting quotes. -/
def strChars (s : List Char) : List Char :=
  '"' :: (escapeChars s ++ ['"'])

/-- Joins a list of strings with a single-character separator, as
`Array.prototype.join` does (empty input yields the empty string). -/
def joinSep (sep : Char) : List (List Char) → List Char
  | [] => []
  | [s] => s
  | s :: rest => s ++ sep :: joinSep sep rest

/-- JSON serialization of a byte sequence after the source's
`Array.from(v)` conversion: the decimal bytes joined by commas inside
square brackets, for example "[1,2,3]". -/
def bytesChars (bs : List (Fin 256)) : List Char :=
  '[' :: (joinSep ',' (bs.map (fun b => natChars b.val)) ++ [']'])

/-- Serialization of one key element on the non-throwing cases; the value
for a bigint is junk (the throwing case is handled by `jsonChars`). -/
def jchars : KvKeyPart → List Char
  | .bool true => ['t', 'r', 'u', 'e']
  | .bool false => ['f', 'a', 'l', 's', 'e']
  | .num i frac exp => numChars i frac exp
  | .str s => strChars s
  | .bytes bs => bytesChars bs
  | .bigint _ => []

/-- Result of `JSON.stringify` on one key element (after the source code's
`Uint8Array` conversion): `none` models the `TypeError` thrown on a
bigint. -/
def jsonChars (p : KvKeyPart) : Option (List Char) :=
  match p with
  | .bigint _ => none
  | _ => some (jchars p)

/-- Maps `jsonChars` over a key, propagating a thrown `TypeError` as
`none`.  Models the `.map((v) => ...).map((v) => JSON.stringify(v))` part
of `stringifyKey` (src/mod.ts lines 122-124). -/
def mapJson : List KvKeyPart → Option (List (List Char))
  | [] => some []
  | p :: rest =>
    match jsonChars p, mapJson rest with
    | some s, some l => some (s :: l)
    | _, _ => none

/-- The source's `stringifyKey` (src/mod.ts lines 121-125): serialize each
element and join with `"."`; `none` models the propagated `TypeError` when
an element is a bigint. -/
def stringifyKey (key : List KvKeyPart) : Option (List Char) :=
  (mapJson key).map (joinSep '.')

theorem joinSep_nil (sep : Char) : joinSep sep [] = [] := rfl

theorem joinSep_single (sep : Char) (s : List Char) : joinSep sep [s] = s := rfl

theorem joinSep_cons2 (sep : Char) (s t : List Char) (r : List (List Char)) :
    joinSep sep (s :: t :: r) = s ++ sep :: joinSep sep (t :: r) := rfl

/-- A key element that is not a bigint serializes without throwing. -/
theorem jsonChars_eq_of_not_bigint (p : KvKeyPart) (h : isBigintPart p = false) :
    jsonChars p = some (jchars p) := by
  cases p <;> simp [isBigintPart] at h ⊢ <;> rfl

/-- Mapping serialization over a bigint-free key collects all the per
element serializations. -/
theorem mapJson_eq_of_no_bigint (key : List KvKeyPart) (h : hasBigint key = false) :
    mapJson key = some (key.map jchars) := by
  induction key with
  | nil => rfl
  | cons p rest ih =>
    simp [hasBigint, List.any_cons] at h
    obtain ⟨h1, h2⟩ := h
    have hb : isBigintPart p = false := by simpa using h1
    simp [mapJson, jsonChars_eq_of_not_bigint p hb, ih (by simpa [hasBigint] using h2)]

/-- On a bigint-free key, `stringifyKey` returns the dot-join of the per
element serializations. -/
theorem stringifyKey_eq_of_no_bigint (key : List KvKeyPart) (h : hasBigint key = false) :
    stringifyKey key = some (joinSep '.' (key.map jchars)) := by
  simp [stringifyKey, mapJson_eq_of_no_bigint key h]

theorem digitChar_inj : ∀ a : Nat, a < 16 → ∀ b : Nat, b < 16 →
    Nat.digitChar a = Nat.digitChar b → a = b := by decide

theorem digitChar_toNat_range : ∀ d : Nat, d < 10 →
    48 ≤ (Nat.digitChar d).toNat ∧ (Nat.digitChar d).toNat ≤ 57 := by decide

/-- Every character of `natChars n` is a decimal digit. -/
theorem mem_natChars (n : Nat) (c : Char) (h : c ∈ natChars n) :
    48 ≤ c.toNat ∧ c.toNat ≤ 57 := by
  unfold natChars at h
  split at h
  · simp at h
    subst h
    exact ⟨by decide, by decide⟩
  · rw [List.mem_reverse] at h
    obtain ⟨d, hd, rfl⟩ := List.mem_map.mp h
    exact digitChar_toNat_range d (Nat.digits_lt_base (by norm_num) hd)

theorem natChars_ne_nil (n : Nat) : natChars n ≠ [] := by
  unfold natChars
  split
  · simp
  · simp [Nat.digits_ne_nil_iff_ne_zero, *]

/-- Lists of decimal digits (values below ten) are mapped injectively to
characters. -/
theorem map_digitChar_inj : ∀ l1 l2 : List Nat, (∀ x ∈ l1, x < 10) → (∀ x ∈ l2, x < 10) →
    l1.map Nat.digitChar = l2.map Nat.digitChar → l1 = l2 := by
  intro l1
  induction l1 with
  | nil => intro l2 _ _ h; cases l2 <;> simp_all
  | cons x t ih =>
    intro l2 h1 h2 h
    cases l2 with
    | nil => simp at h
    | cons y u =>
      simp only [List.map_cons, List.cons.injEq] at h
      have hx := h1 x (by simp)
      have hy := h2 y (by simp)
      have : x = y := digitChar_inj x (by omega) y (by omega) h.1
      subst this
      rw [ih u (fun z hz => h1 z (by simp [hz])) (fun z hz => h2 z (by simp [hz])) h.2]

theorem natChars_inj (m n : Nat) (h : natChars m = natChars n) : m = n := by
  by_cases hm : m = 0 <;> by_cases hn : n = 0
  · omega
  · exfalso
    unfold natChars at h
    rw [if_pos hm, if_neg hn] at h
    have : (Nat.digits 10 n).map Nat.digitChar = ['0'] := by
      have := congrArg List.reverse h
      simpa using this.symm
    have hd : Nat.digits 10 n = [0] := by
      have hlen : (Nat.digits 10 n).length = 1 := by
        have := congrArg List.length this
        simpa using this
      obtain ⟨d, hd⟩ : ∃ d, Nat.digits 10 n = [d] := by
        cases hdig : Nat.digits 10 n with
        | nil => rw [hdig] at hlen; simp at hlen
        | cons a t =>
          rw [hdig] at hlen
          simp at hlen
          exact ⟨a, by rw [hlen]⟩
      rw [hd] at this
      simp at this
      have hdlt : d < 10 := Nat.digits_lt_base (by norm_num) (by rw [hd]; simp)
      have : d = 0 := digitChar_inj d (by omega) 0 (by norm_num) (by simpa using this)
      rw [hd, this]
    have := congrArg (Nat.ofDigits 10) hd
    rw [Nat.ofDigits_digits] at this
    simp [Nat.ofDigits] at this
    exact hn this
  · exfalso
    unfold natChars at h
    rw [if_neg hm, if_pos hn] at h
    have : (Nat.digits 10 m).map Nat.digitChar = ['0'] := by
      have := congrArg List.reverse h
      simpa using this
    have hd : Nat.digits 10 m = [0] := by
      have hlen : (Nat.digits 10 m).length = 1 := by
        have := congrArg List.length this
        simpa using this
      obtain ⟨d, hd⟩ : ∃ d, Nat.digits 10 m = [d] := by
        cases hdig : Nat.digits 10 m with
        | nil => rw [hdig] at hlen; simp at hlen
        | cons a t =>
          rw [hdig] at hlen
          simp at hlen
          exact ⟨a, by rw [hlen]⟩
      rw [hd] at this
      simp at this
      have hdlt : d < 10 := Nat.digits_lt_base (by norm_num) (by rw [hd]; simp)
      have : d = 0 := digitChar_inj d (by omega) 0 (by norm_num) (by simpa using this)
      rw [hd, this]
    have := congrArg (Nat.ofDigits 10) hd
    rw [Nat.ofDigits_digits] at this
    simp [Nat.ofDigits] at this
    exact hm this
  · unfold natChars at h
    rw [if_neg hm, if_neg hn] at h
    have h2 := List.reverse_injective h
    have h3 := map_digitChar_inj (Nat.digits 10 m) (Nat.digits 10 n)
      (fun x hx => Nat.digits_lt_base (by norm_num) hx)
      (fun x hx => Nat.digits_lt_base (by norm_num) hx) h2
    have := congrArg (Nat.ofDigits 10) h3
    simpa [Nat.ofDigits_digits] using this

/-- Every character of `intChars i` is a decimal digit or a minus sign. -/
theorem mem_intChars (i : Int) (c : Char) (h : c ∈ intChars i) :
    (48 ≤ c.toNat ∧ c.toNat ≤ 57) ∨ c.toNat = 45 := by
  cases i with
  | ofNat n => exact Or.inl (mem_natChars n c h)
  | negSucc n =>
    simp only [intChars, List.mem_cons] at h
    rcases h with h | h
    · subst h; exact Or.inr (by decide)
    · exact Or.inl (mem_natChars (n + 1) c h)

theorem intChars_ne_nil (i : Int) : intChars i ≠ [] := by
  cases i with
  | ofNat n => exact natChars_ne_nil n
  | negSucc n => simp [intChars]

theorem intChars_inj (i j : Int) (h : intChars i = intChars j) : i = j := by
  cases i with
  | ofNat m =>
    cases j with
    | ofNat n => simp only [intChars] at h; rw [natChars_inj m n h]
    | negSucc n =>
      exfalso
      simp only [intChars] at h
      obtain ⟨c, t, hct⟩ := List.exists_cons_of_ne_nil (natChars_ne_nil m)
      rw [hct] at h
      simp at h
      have hc : c ∈ natChars m := by rw [hct]; simp
      have := mem_natChars m c hc
      rw [h.1] at this
      simp at this
  | negSucc m =>
    cases j with
    | ofNat n =>
      exfalso
      simp only [intChars] at h
      obtain ⟨c, t, hct⟩ := List.exists_cons_of_ne_nil (natChars_ne_nil n)
      rw [hct] at h
      simp at h
      have hc : c ∈ natChars n := by rw [hct]; simp
      have := mem_natChars n c hc
      rw [← h.1] at this
      simp at this
    | negSucc n =>
      simp only [intChars, List.cons.injEq] at h
      have h3 : m = n := by have := natChars_inj (m + 1) (n + 1) h.2; omega
      rw [h3]

/-- Cancellation for a separator-terminated prefix: if neither prefix
contains the separator, the decomposition around the first separator is
unique. -/
theorem sepCancel (sep : Char) : ∀ u v a b : List Char, sep ∉ u → sep ∉ v →
    u ++ sep :: a = v ++ sep :: b → u = v ∧ a = b := by
  intro u
  induction u with
  | nil =>
    intro v a b _ hv h
    cases v with
    | nil => simpa using h
    | cons c t =>
      exfalso
      simp only [List.nil_append, List.cons_append, List.cons.injEq] at h
      exact hv (by simp [h.1])
  | cons c t ih =>
    intro v a b hu hv h
    cases v with
    | nil =>
      exfalso
      simp only [List.cons_append, List.nil_append, List.cons.injEq] at h
      exact hu (by simp [h.1])
    | cons d w =>
      simp only [List.cons_append, List.cons.injEq] at h
      obtain ⟨rfl, h2⟩ := h
      have := ih w a b (fun hm => hu (by simp [hm])) (fun hm => hv (by simp [hm])) h2
      exact ⟨by rw [this.1], this.2⟩

/-- Every character of a join is the separator or belongs to one of the
joined strings. -/
theorem mem_joinSep (sep : Char) : ∀ L : List (List Char), ∀ c ∈ joinSep sep L,
    c = sep ∨ ∃ s ∈ L, c ∈ s := by
  intro L
  induction L with
  | nil => intro c hc; simp [joinSep] at hc
  | cons s rest ih =>
    intro c hc
    cases rest with
    | nil => exact Or.inr ⟨s, by simp, by simpa [joinSep] using hc⟩
    | cons t r =>
      rw [joinSep_cons2] at hc
      rw [List.mem_append] at hc
      rcases hc with hc | hc
      · exact Or.inr ⟨s, by simp, hc⟩
      · rw [List.mem_cons] at hc
        rcases hc with hc | hc
        · exact Or.inl hc
        · rcases ih c hc with h | ⟨w, hw, hcw⟩
          · exact Or.inl h
          · exact Or.inr ⟨w, by simp [hw], hcw⟩

/-- A join by a separator that occurs in none of the (nonempty) joined
strings determines the list of strings. -/
theorem joinSep_inj (sep : Char) : ∀ L1 L2 : List (List Char),
    (∀ s ∈ L1, sep ∉ s ∧ s ≠ []) → (∀ s ∈ L2, sep ∉ s ∧ s ≠ []) →
    joinSep sep L1 = joinSep sep L2 → L1 = L2 := by
  intro L1
  induction L1 with
  | nil =>
    intro L2 _ h2 h
    cases L2 with
    | nil => rfl
    | cons s rest =>
      exfalso
      cases rest with
      | nil =>
        simp only [joinSep_nil, joinSep_single] at h
        exact (h2 s (by simp)).2 h.symm
      | cons t r =>
        rw [joinSep_cons2] at h
        simp only [joinSep_nil] at h
        have := congrArg List.length h
        simp at this
        omega
  | cons s rest ih =>
    intro L2 h1 h2 h
    cases L2 with
    | nil =>
      exfalso
      cases rest with
      | nil =>
        simp only [joinSep_single, joinSep_nil] at h
        exact (h1 s (by simp)).2 h
      | cons t r =>
        rw [joinSep_cons2] at h
        simp only [joinSep_nil] at h
        have := congrArg List.length h
        simp at this
    | cons s2 rest2 =>
      cases rest with
      | nil =>
        cases rest2 with
        | nil => simp only [joinSep_single] at h; rw [h]
        | cons t2 r2 =>
          exfalso
          rw [joinSep_single, joinSep_cons2] at h
          exact (h1 s (by simp)).1 (by rw [h]; simp)
      | cons t r =>
        cases rest2 with
        | nil =>
          exfalso
          rw [joinSep_cons2, joinSep_single] at h
          exact (h2 s2 (by simp)).1 (by rw [← h]; simp)
        | cons t2 r2 =>
          rw [joinSep_cons2, joinSep_cons2] at h
          obtain ⟨he, hrest⟩ := sepCancel sep s s2 (joinSep sep (t :: r)) (joinSep sep (t2 :: r2))
            (h1 s (by simp)).1 (h2 s2 (by simp)).1 h
          have := ih (t2 :: r2) (fun x hx => h1 x (List.mem_cons_of_mem s hx))
            (fun x hx => h2 x (List.mem_cons_of_mem s2 hx)) hrest
          rw [he, this]

/-- Character denoted by a two-character JSON escape code. -/
def escCode (x : Char) : Option Char :=
  if x = '"' then some '"'
  else if x = '\\' then some '\\'
  else if x = 'b' then some (Char.ofNat 8)
  else if x = 'f' then some (Char.ofNat 12)
  else if x = 'n' then some (Char.ofNat 10)
  else if x = 'r' then some (Char.ofNat 13)
  else if x = 't' then some (Char.ofNat 9)
  else none

theorem hexPair_inj : ∀ v : Nat, v < 32 → ∀ w : Nat, w < 32 →
    Nat.digitChar (v / 16) = Nat.digitChar (w / 16) →
    Nat.digitChar (v % 16) = Nat.digitChar (w % 16) → v = w := by decide

theorem char_eq_of_toNat_eq (a b : Char) (h : a.toNat = b.toNat) : a = b := by
  have := Char.ofNat_toNat a
  rw [h, Char.ofNat_toNat b] at this
  exact this.symm

/-- The escape sequence of a character has exactly one of three shapes: a
two-character backslash escape with a code letter, a six-character hex
escape, or the character itself emitted verbatim. -/
theorem escChar_shape (c : Char) :
    (∃ x, escChar c = ['\\', x] ∧ x ≠ 'u' ∧ escCode x = some c) ∨
    (escChar c = ['\\', 'u', '0', '0', Nat.digitChar (c.toNat / 16),
        Nat.digitChar (c.toNat % 16)] ∧ c.toNat < 32) ∨
    (escChar c = [c] ∧ c ≠ '"' ∧ c ≠ '\\') := by
  unfold escChar
  split_ifs with h1 h2 h3 h4 h5 h6 h7 h8
  · exact Or.inl ⟨'"', rfl, by decide, by rw [h1]; rfl⟩
  · exact Or.inl ⟨'\\', rfl, by decide, by rw [h2]; rfl⟩
  · exact Or.inl ⟨'b', rfl, by decide, by rw [h3]; rfl⟩
  · exact Or.inl ⟨'f', rfl, by decide, by rw [h4]; rfl⟩
  · exact Or.inl ⟨'n', rfl, by decide, by rw [h5]; rfl⟩
  · exact Or.inl ⟨'r', rfl, by decide, by rw [h6]; rfl⟩
  · exact Or.inl ⟨'t', rfl, by decide, by rw [h7]; rfl⟩
  · exact Or.inr (Or.inl ⟨rfl, h8⟩)
  · exact Or.inr (Or.inr ⟨rfl, h1, h2⟩)

/-- The escape sequence of a character is nonempty and never starts with a
quote. -/
theorem escChar_head (c : Char) : ∃ d t, escChar c = d :: t ∧ d ≠ '"' := by
  rcases escChar_shape c with ⟨x, he, _, _⟩ | ⟨he, _⟩ | ⟨he, hq, _⟩
  · exact ⟨'\\', [x], he, by decide⟩
  · exact ⟨'\\', _, he, by decide⟩
  · exact ⟨c, [], he, hq⟩

/-- Unique decoding of a JSON string body followed by its closing quote:
the escaped body and the remainder after the closing quote are both
determined. -/
theorem escCancel : ∀ s1 s2 a b : List Char,
    escapeChars s1 ++ '"' :: a = escapeChars s2 ++ '"' :: b → s1 = s2 ∧ a = b := by
  intro s1
  induction s1 with
  | nil =>
    intro s2 a b h
    cases s2 with
    | nil => simpa [escapeChars] using h
    | cons c2 t2 =>
      exfalso
      simp only [escapeChars, List.map_cons, List.flatten_cons, List.nil_append,
        List.append_assoc] at h
      obtain ⟨d, t, he, hd⟩ := escChar_head c2
      rw [he] at h
      simp at h
      exact hd h.1.symm
  | cons c1 t1 ih =>
    intro s2 a b h
    cases s2 with
    | nil =>
      exfalso
      simp only [escapeChars, List.map_cons, List.flatten_cons, List.nil_append,
        List.append_assoc] at h
      obtain ⟨d, t, he, hd⟩ := escChar_head c1
      rw [he] at h
      simp at h
      exact hd h.1
    | cons c2 t2 =>
      simp only [escapeChars, List.map_cons, List.flatten_cons, List.append_assoc] at h
      rcases escChar_shape c1 with ⟨x1, he1, hu1, hc1⟩ | ⟨he1, h32a⟩ | ⟨he1, hq1, hb1⟩ <;>
        rcases escChar_shape c2 with ⟨x2, he2, hu2, hc2⟩ | ⟨he2, h32b⟩ | ⟨he2, hq2, hb2⟩ <;>
          rw [he1, he2] at h <;> simp only [List.cons_append, List.nil_append,
            List.cons.injEq] at h
      · obtain ⟨_, hx, hrest⟩ := h
        subst hx
        rw [hc1] at hc2
        have hcc : c1 = c2 := by simpa using hc2
        subst hcc
        have := ih t2 a b (by simpa [escapeChars] using hrest)
        exact ⟨by rw [this.1], this.2⟩
      · exact absurd h.2.1 hu1
      · exact absurd h.1.symm hb2
      · exact absurd h.2.1.symm hu2
      · obtain ⟨_, _, _, _, h5, h6, hrest⟩ := h
        have hnat : c1.toNat = c2.toNat := hexPair_inj c1.toNat h32a c2.toNat h32b h5 h6
        have hcc : c1 = c2 := char_eq_of_toNat_eq c1 c2 hnat
        subst hcc
        have := ih t2 a b (by simpa [escapeChars] using hrest)
        exact ⟨by rw [this.1], this.2⟩
      · exact absurd h.1.symm hb2
      · exact absurd h.1 hb1
      · exact absurd h.1 hb1
      · obtain ⟨hcc, hrest⟩ := h
        subst hcc
        have := ih t2 a b (by simpa [escapeChars] using hrest)
        exact ⟨by rw [this.1], this.2⟩

/-- Key elements on which the spec's injectivity claim is examined:
everything except bigints (whose serialization throws) and numbers whose
string form is not a plain integer: a nonempty fractional part or an
exponent part puts the join separator or further structure inside the
serialization. -/
def goodPart : KvKeyPart → Bool
  | .num _ frac exp => frac.isEmpty && exp.isNone
  | .bigint _ => false
  | _ => true

/-- A key all of whose elements are good in the sense of `goodPart`. -/
def goodKey (key : List KvKeyPart) : Bool :=
  key.all goodPart

/-- Constructor discriminant used for first-character analysis of the
serializations. -/
def headClass : KvKeyPart → Nat
  | .bool _ => 0
  | .num _ _ _ => 1
  | .str _ => 2
  | .bytes _ => 3
  | .bigint _ => 9

/-- Class of a character as the possible first character of a
serialization: 0 for the letters starting "true"/"false", 1 for digits and
the minus sign, 2 for the quote, 3 for the opening bracket. -/
def charClassOf (c : Char) : Nat :=
  if c.toNat = 116 ∨ c.toNat = 102 then 0
  else if c.toNat = 34 then 2
  else if c.toNat = 91 then 3
  else if c.toNat = 45 ∨ (48 ≤ c.toNat ∧ c.toNat ≤ 57) then 1
  else 9

theorem charClassOf_digit45 (c : Char)
    (h : (48 ≤ c.toNat ∧ c.toNat ≤ 57) ∨ c.toNat = 45) : charClassOf c = 1 := by
  unfold charClassOf
  split_ifs with h1 h2 h3 h4 <;> omega

theorem dot_not_mem_intChars (i : Int) : ('.' : Char) ∉ intChars i := by
  intro h
  have := mem_intChars i '.' h
  revert this
  decide

/-- The serialization of a good key element is nonempty and its first
character determines the element's constructor. -/
theorem jchars_head (x : KvKeyPart) (hx : goodPart x = true) :
    ∃ c t, jchars x = c :: t ∧ charClassOf c = headClass x := by
  cases x with
  | bool b => cases b <;> exact ⟨_, _, rfl, by decide⟩
  | num i frac exp =>
    obtain ⟨c, t, hct⟩ := List.exists_cons_of_ne_nil (intChars_ne_nil i)
    refine ⟨c, t ++ fracChars frac ++ expChars exp, ?_, ?_⟩
    · simp [jchars, numChars, hct]
    · have hc : c ∈ intChars i := by rw [hct]; simp
      have := mem_intChars i c hc
      simp [headClass, charClassOf_digit45 c this]
  | str s =>
    refine ⟨'"', escapeChars s ++ ['"'], rfl, ?_⟩
    show charClassOf '"' = 2
    decide
  | bytes bs =>
    refine ⟨'[', joinSep ',' (bs.map (fun b => natChars b.val)) ++ [']'], rfl, ?_⟩
    show charClassOf '[' = 3
    decide
  | bigint n => simp [goodPart] at hx

/-- Concatenations starting with the serializations of good key elements
agree on the elements' constructors. -/
theorem headClass_eq_of_append (x y : KvKeyPart) (hx : goodPart x = true)
    (hy : goodPart y = true) (a b : List Char) (h : jchars x ++ a = jchars y ++ b) :
    headClass x = headClass y := by
  obtain ⟨c1, t1, he1, hc1⟩ := jchars_head x hx
  obtain ⟨c2, t2, he2, hc2⟩ := jchars_head y hy
  rw [he1, he2] at h
  simp only [List.cons_append, List.cons.injEq] at h
  rw [← hc1, ← hc2, h.1]

/-- A suffix that can follow one element's serialization inside a dot
join: either nothing, or a dot and the rest of the join. -/
def SepTail (a : List Char) : Prop :=
  a = [] ∨ ∃ t, a = '.' :: t

theorem comma_or_digit_of_mem_bytesBody (bs : List (Fin 256)) (c : Char)
    (h : c ∈ joinSep ',' (bs.map (fun b => natChars b.val))) :
    c.toNat = 44 ∨ (48 ≤ c.toNat ∧ c.toNat ≤ 57) := by
  rcases mem_joinSep ',' _ c h with rfl | ⟨s, hs, hcs⟩
  · exact Or.inl (by decide)
  · obtain ⟨v, _, rfl⟩ := List.mem_map.mp hs
    exact Or.inr (mem_natChars _ c hcs)

theorem bytesBody_inj (bs1 bs2 : List (Fin 256))
    (h : joinSep ',' (bs1.map (fun b => natChars b.val)) =
      joinSep ',' (bs2.map (fun b => natChars b.val))) : bs1 = bs2 := by
  have hmap := joinSep_inj ','
    (bs1.map (fun b => natChars b.val)) (bs2.map (fun b => natChars b.val))
    (by
      intro s hs
      obtain ⟨v, _, rfl⟩ := List.mem_map.mp hs
      refine ⟨fun hc => ?_, natChars_ne_nil _⟩
      have := mem_natChars _ ',' hc
      revert this
      decide)
    (by
      intro s hs
      obtain ⟨v, _, rfl⟩ := List.mem_map.mp hs
      refine ⟨fun hc => ?_, natChars_ne_nil _⟩
      have := mem_natChars _ ',' hc
      revert this
      decide)
    h
  clear h
  induction bs1 generalizing bs2 with
  | nil => cases bs2 <;> simp_all
  | cons v t ih =>
    cases bs2 with
    | nil => simp at hmap
    | cons w u =>
      simp only [List.map_cons, List.cons.injEq] at hmap
      have hv : v = w := by
        have := natChars_inj v.val w.val hmap.1
        exact Fin.ext this
      rw [hv, ih u hmap.2]

/-- Unique decomposition of a dot-join around the serialization of its
first element: a good element's serialization followed by a legal tail
determines both the element and the tail. -/
theorem serCancel (x y : KvKeyPart) (hx : goodPart x = true) (hy : goodPart y = true)
    (a b : List Char) (ha : SepTail a) (hb : SepTail b)
    (h : jchars x ++ a = jchars y ++ b) : x = y ∧ a = b := by
  have hclass := headClass_eq_of_append x y hx hy a b h
  cases x with
  | bool b1 =>
    cases y with
    | bool b2 =>
      cases b1 <;> cases b2 <;> simp [jchars] at h <;> simp_all
    | num i frac exp => simp [headClass] at hclass
    | str s => simp [headClass] at hclass
    | bytes bs => simp [headClass] at hclass
    | bigint n => simp [goodPart] at hy
  | num i1 f1 e1 =>
    cases y with
    | bool b2 => simp [headClass] at hclass
    | num i2 f2 e2 =>
      obtain ⟨hf1, he1⟩ : f1 = [] ∧ e1 = none := by
        simpa [goodPart, List.isEmpty_iff, Option.isNone_iff_eq_none] using hx
      obtain ⟨hf2, he2⟩ : f2 = [] ∧ e2 = none := by
        simpa [goodPart, List.isEmpty_iff, Option.isNone_iff_eq_none] using hy
      subst hf1; subst hf2; subst he1; subst he2
      simp only [jchars, numChars, fracChars, expChars, List.append_nil] at h
      rcases ha with rfl | ⟨t, rfl⟩ <;> rcases hb with rfl | ⟨u, rfl⟩
      · simp only [List.append_nil] at h
        exact ⟨by rw [intChars_inj i1 i2 h], rfl⟩
      · exfalso
        simp only [List.append_nil] at h
        exact dot_not_mem_intChars i1 (by rw [h]; simp)
      · exfalso
        simp only [List.append_nil] at h
        exact dot_not_mem_intChars i2 (by rw [← h]; simp)
      · obtain ⟨h1, h2⟩ := sepCancel '.' (intChars i1) (intChars i2) t u
          (dot_not_mem_intChars i1) (dot_not_mem_intChars i2) h
        exact ⟨by rw [intChars_inj i1 i2 h1], by rw [h2]⟩
    | str s => simp [headClass] at hclass
    | bytes bs => simp [headClass] at hclass
    | bigint n => simp [goodPart] at hy
  | str s1 =>
    cases y with
    | bool b2 => simp [headClass] at hclass
    | num i frac exp => simp [headClass] at hclass
    | str s2 =>
      simp only [jchars, strChars, List.cons_append, List.append_assoc,
        List.singleton_append, List.cons.injEq, true_and] at h
      obtain ⟨hs, hab⟩ := escCancel s1 s2 a b h
      exact ⟨by rw [hs], hab⟩
    | bytes bs => simp [headClass] at hclass
    | bigint n => simp [goodPart] at hy
  | bytes bs1 =>
    cases y with
    | bool b2 => simp [headClass] at hclass
    | num i frac exp => simp [headClass] at hclass
    | str s => simp [headClass] at hclass
    | bytes bs2 =>
      simp only [jchars, bytesChars, List.cons_append, List.append_assoc,
        List.singleton_append, List.cons.injEq, true_and] at h
      obtain ⟨h1, h2⟩ := sepCancel ']' _ _ a b
        (fun hc => by
          have := comma_or_digit_of_mem_bytesBody bs1 ']' hc
          revert this
          decide)
        (fun hc => by
          have := comma_or_digit_of_mem_bytesBody bs2 ']' hc
          revert this
          decide)
        h
      exact ⟨by rw [bytesBody_inj bs1 bs2 h1], h2⟩
    | bigint n => simp [goodPart] at hy
  | bigint n => simp [goodPart] at hx

/-- The serialization of a good key element is nonempty. -/
theorem jchars_ne_nil (x : KvKeyPart) (hx : goodPart x = true) : jchars x ≠ [] := by
  obtain ⟨c, t, hct, _⟩ := jchars_head x hx
  simp [hct]

/-- The dot-join of the serializations of a good key determines the key. -/
theorem joinSep_map_jchars_inj : ∀ k1 k2 : List KvKeyPart,
    goodKey k1 = true → goodKey k2 = true →
    joinSep '.' (k1.map jchars) = joinSep '.' (k2.map jchars) → k1 = k2 := by
  intro k1
  induction k1 with
  | nil =>
    intro k2 _ h2 h
    cases k2 with
    | nil => rfl
    | cons y ys =>
      exfalso
      have hy : goodPart y = true := by
        simp [goodKey, List.all_cons] at h2
        exact h2.1
      cases ys with
      | nil =>
        simp only [List.map_nil, List.map_cons, joinSep_nil, joinSep_single] at h
        exact jchars_ne_nil y hy h.symm
      | cons z zs =>
        simp only [List.map_nil, List.map_cons, joinSep_nil] at h
        rw [joinSep_cons2] at h
        have := congrArg List.length h
        simp at this
        omega
  | cons x xs ih =>
    intro k2 h1 h2 h
    have hgx : goodPart x = true := by
      simp [goodKey, List.all_cons] at h1
      exact h1.1
    have hgxs : goodKey xs = true := by
      simp [goodKey, List.all_cons] at h1 ⊢
      exact h1.2
    cases k2 with
    | nil =>
      exfalso
      cases xs with
      | nil =>
        simp only [List.map_cons, List.map_nil, joinSep_single, joinSep_nil] at h
        exact jchars_ne_nil x hgx h
      | cons z zs =>
        simp only [List.map_cons, List.map_nil, joinSep_nil] at h
        rw [joinSep_cons2] at h
        have := congrArg List.length h
        simp at this
    | cons y ys =>
      have hgy : goodPart y = true := by
        simp [goodKey, List.all_cons] at h2
        exact h2.1
      have hgys : goodKey ys = true := by
        simp [goodKey, List.all_cons] at h2 ⊢
        exact h2.2
      cases xs with
      | nil =>
        cases ys with
        | nil =>
          simp only [List.map_cons, List.map_nil, joinSep_single] at h
          have := serCancel x y hgx hgy [] [] (Or.inl rfl) (Or.inl rfl) (by simpa using h)
          rw [this.1]
        | cons z2 zs2 =>
          exfalso
          simp only [List.map_cons, List.map_nil, joinSep_single] at h
          rw [joinSep_cons2] at h
          have := serCancel x y hgx hgy [] ('.' :: joinSep '.' (jchars z2 :: zs2.map jchars))
            (Or.inl rfl) (Or.inr ⟨_, rfl⟩) (by simpa using h)
          simp at this
      | cons z zs =>
        cases ys with
        | nil =>
          exfalso
          simp only [List.map_cons, List.map_nil, joinSep_single] at h
          rw [joinSep_cons2] at h
          have := serCancel x y hgx hgy ('.' :: joinSep '.' (jchars z :: zs.map jchars)) []
            (Or.inr ⟨_, rfl⟩) (Or.inl rfl) (by simpa using h)
          simp at this
        | cons z2 zs2 =>
          simp only [List.map_cons] at h
          rw [joinSep_cons2, joinSep_cons2] at h
          have hser := serCancel x y hgx hgy
            ('.' :: joinSep '.' (jchars z :: zs.map jchars))
            ('.' :: joinSep '.' (jchars z2 :: zs2.map jchars))
            (Or.inr ⟨_, rfl⟩) (Or.inr ⟨_, rfl⟩) h
          obtain ⟨hxy, htail⟩ := hser
          simp only [List.cons.injEq, true_and] at htail
          have hrest := ih (z2 :: zs2) hgxs hgys (by simpa [List.map_cons] using htail)
          rw [hxy, hrest]

theorem natChars_small (n : Nat) (h1 : 0 < n) (h2 : n < 10) :
    natChars n = [Nat.digitChar n] := by
  unfold natChars
  rw [if_neg (by omega), Nat.digits_def' (by norm_num : (1:Nat) < 10) h1]
  simp [Nat.div_eq_of_lt h2, Nat.mod_eq_of_lt h2]

theorem intChars_lit_one : intChars 1 = natChars 1 := rfl

theorem intChars_lit_five : intChars 5 = natChars 5 := rfl

theorem goodPart_not_bigint (p : KvKeyPart) (h : goodPart p = true) :
    isBigintPart p = false := by
  cases p <;> simp [goodPart, isBigintPart] at h ⊢

theorem goodKey_no_bigint (k : List KvKeyPart) (h : goodKey k = true) :
    hasBigint k = false := by
  induction k with
  | nil => rfl
  | cons p rest ih =>
    simp [goodKey, List.all_cons] at h
    simp [hasBigint, List.any_cons]
    exact ⟨by simpa using goodPart_not_bigint p h.1,
      by simpa [hasBigint] using ih (by simpa [goodKey] using h.2)⟩

/-- C2 (counterexample): the fingerprints of the distinct argument lists
`[1.5]` and `[1, 5]` coincide (both serialize to "1.5"), because the
serialization of a non-integer number contains the join separator `"."`;
likewise the fingerprints of `[1.5e21]` and `[1, 5e21]`, lists of
integer-valued numbers, coincide (both serialize to "1.5e+21"), because
ECMAScript prints doubles of magnitude at least 1e21 in exponent form.
Both refute the claim that fingerprints are equal only for argument lists
with elements equal in type and value, in order. -/
theorem stringifyKey_not_injective :
    (stringifyKey [KvKeyPart.num 1 [(5 : Fin 10)] none] =
      stringifyKey [KvKeyPart.num 1 [] none, KvKeyPart.num 5 [] none] ∧
      [KvKeyPart.num 1 [(5 : Fin 10)] none] ≠
        [KvKeyPart.num 1 [] none, KvKeyPart.num 5 [] none]) ∧
    (stringifyKey [KvKeyPart.num 1 [(5 : Fin 10)] (some 21)] =
      stringifyKey [KvKeyPart.num 1 [] none, KvKeyPart.num 5 [] (some 21)] ∧
      [KvKeyPart.num 1 [(5 : Fin 10)] (some 21)] ≠
        [KvKeyPart.num 1 [] none, KvKeyPart.num 5 [] (some 21)]) := by
  refine ⟨⟨?_, by decide⟩, ⟨?_, by decide⟩⟩ <;>
    rw [stringifyKey_eq_of_no_bigint _ (by decide),
      stringifyKey_eq_of_no_bigint _ (by decide)] <;>
    simp only [List.map_cons, List.map_nil, joinSep_single, joinSep_cons2, jchars, numChars,
      fracChars, expChars, List.map, intChars_lit_one, intChars_lit_five,
      natChars_small 1 (by norm_num) (by norm_num), natChars_small 5 (by norm_num) (by norm_num),
      List.append_nil, List.nil_append, List.cons_append, List.append_assoc] <;>
    rfl

/-- C2 (amended): equal argument lists always produce equal fingerprints,
and on keys whose elements are booleans, strings, byte sequences, and
numbers serialized in plain integer form (integer-valued with magnitude
below 1e21, so that their string form has neither a fraction nor an
exponent part) the fingerprints are equal if and only if the argument
lists have elements equal in type and value, in the same order.  The
restriction is forced by the counterexample: a fractional part puts the
separator `"."` inside the serialization (`1.5`), and so does the
exponent form ECMAScript uses for large magnitudes (`1.5e+21`). -/
theorem stringifyKey_eq_iff_of_goodKey (k1 k2 : List KvKeyPart)
    (h1 : goodKey k1 = true) (h2 : goodKey k2 = true) :
    stringifyKey k1 = stringifyKey k2 ↔ k1 = k2 := by
  constructor
  · intro h
    rw [stringifyKey_eq_of_no_bigint k1 (goodKey_no_bigint k1 h1),
      stringifyKey_eq_of_no_bigint k2 (goodKey_no_bigint k2 h2)] at h
    simp only [Option.some.injEq] at h
    exact joinSep_map_jchars_inj k1 k2 h1 h2 h
  · intro h
    rw [h]

/-- C2 (amended, witness): the fingerprints of the singleton boolean key
and of a singleton string key containing a dot differ. -/
theorem stringifyKey_eq_iff_witness :
    (stringifyKey [KvKeyPart.bool true] =
      stringifyKey [KvKeyPart.str ['a', '.', 'b']]) = False := by
  apply eq_false
  intro h
  have := (stringifyKey_eq_iff_of_goodKey [KvKeyPart.bool true]
    [KvKeyPart.str ['a', '.', 'b']] (by decide) (by decide)).mp h
  simp at this

/-- C9: on every key whose elements are of the accepted composite-key
element types (booleans, numbers, strings, byte sequences; no bigint),
computing the fingerprint is total: `stringifyKey` returns a string and
never fails. -/
theorem stringifyKey_total_of_no_bigint (key : List KvKeyPart)
    (h : hasBigint key = false) : (stringifyKey key).isSome = true := by
  rw [stringifyKey_eq_of_no_bigint key h]
  rfl

/-- C9 (witness): a concrete key with one element of each accepted type
serializes successfully. -/
theorem stringifyKey_total_witness :
    (stringifyKey [KvKeyPart.bool true, KvKeyPart.str ['a'],
      KvKeyPart.bytes [(7 : Fin 256)], KvKeyPart.num 3 [] none]).isSome = true :=
  stringifyKey_total_of_no_bigint
    [KvKeyPart.bool true, KvKeyPart.str ['a'],
      KvKeyPart.bytes [(7 : Fin 256)], KvKeyPart.num 3 [] none] (by decide)

/-- The `expireIn` option of `kvMemoize` (src/mod.ts lines 12-15): absent,
a constant number of milliseconds, or a function of the result and the
arguments.  Note that the source types the function's `result` parameter
as `R` (possibly nullish), unlike `shouldRecalculate` and `shouldCache`
which take `NonNullable<R>`; the embedding mirrors this with an
`Option R` parameter. -/
inductive ExpireIn (R : Type) where
  | none
  | const (ms : Nat)
  | fn (f : Option R → List KvKeyPart → Option Nat)

/-- The options bundle of `kvMemoize` (src/mod.ts lines 4-67).  Results of
type `R | null | undefined` in the source are modelled as `Option R`, with
`Option.none` standing for a nullish value.  The optional `kv.get`/`kv.set`
overrides of the source are not represented here: both the default and the
overridden store operations are modelled by the same abstract read and
write effects in `Env`. -/
structure KvMemoizeOptions (R : Type) where
  expireIn : ExpireIn R
  shouldRecalculate : Option (R → List KvKeyPart → Bool)
  shouldCache : Option (R → List KvKeyPart → Bool)

/-- Outcomes of the external effects a single factory run may perform:
the store read (`db.get` or `options.kv.get`), the underlying computation
`fn`, and the store write (`db.set` or `options.kv.set`).  `Except.error`
models a rejected promise, and `Option.none` inside a success models a
nullish value. -/
structure Env (E R : Type) where
  getResult : Except E (Option R)
  fnResult : Except E (Option R)
  setResult : Except E Unit

/-- Counts of the effects and policy calls performed by one factory run,
and the payload of the store write when one was attempted. -/
structure RunLog (R : Type) where
  getCount : Nat
  fnCount : Nat
  setCount : Nat
  recalcCount : Nat
  cacheCount : Nat
  expireCount : Nat
  written : Option (List KvKeyPart × R × Option Nat)

/-- The expiration attached to a write (src/mod.ts lines 99-101): the
function option is applied to the result (nullish or not) and the
arguments; the constant option is used as is; an absent option gives no
expiration. -/
def expireValue {R : Type} (opts : KvMemoizeOptions R) (result : Option R)
    (args : List KvKeyPart) : Option Nat :=
  match opts.expireIn with
  | .fn f => f result args
  | .const n => some n
  | .none => none

/-- Number of `expireIn` policy-function invocations performed when the
expiration is computed: one when the option is a function, zero
otherwise. -/
def expirePolicyCalls {R : Type} (opts : KvMemoizeOptions R) : Nat :=
  match opts.expireIn with
  | .fn _ => 1
  | _ => 0

/-- Number of `shouldCache` policy invocations performed when a
non-nullish fresh result is examined: one when the option is present,
zero otherwise. -/
def cacheCalls {R : Type} (opts : KvMemoizeOptions R) : Nat :=
  match opts.shouldCache with
  | some _ => 1
  | none => 0

/-- The cache-write predicate (src/mod.ts line 104):
`options?.shouldCache?.(result, ...args) ?? true`. -/
def passCache {R : Type} (opts : KvMemoizeOptions R) (r : R) (args : List KvKeyPart) : Bool :=
  match opts.shouldCache with
  | some f => f r args
  | none => true

/-- Whether the factory proceeds past the cached value to invoke the
underlying computation (src/mod.ts lines 91-95): always on a nullish
cached value, and on a non-nullish cached value exactly when
`shouldRecalculate` is present and returns true. -/
def computePath {R : Type} (opts : KvMemoizeOptions R) (args : List KvKeyPart) :
    Option R → Bool
  | none => true
  | some v =>
    match opts.shouldRecalculate with
    | none => false
    | some f => f v args

/-- Continuation of the factory from line 97 of src/mod.ts: invoke `fn`,
compute the expiration, and conditionally write.  `rc` is the number of
`shouldRecalculate` calls already performed. -/
def computeStep {E R : Type} (opts : KvMemoizeOptions R) (key args : List KvKeyPart)
    (env : Env E R) (rc : Nat) : Except E (Option R) × RunLog R :=
  match env.fnResult with
  | .error e => (.error e, ⟨1, 1, 0, rc, 0, 0, none⟩)
  | .ok result =>
    match result with
    | none => (.ok none, ⟨1, 1, 0, rc, 0, expirePolicyCalls opts, none⟩)
    | some r =>
      if passCache opts r args then
        match env.setResult with
        | .error e => (.error e, ⟨1, 1, 1, rc, cacheCalls opts, expirePolicyCalls opts,
            some (key ++ args, r, expireValue opts (some r) args)⟩)
        | .ok _ => (.ok (some r), ⟨1, 1, 1, rc, cacheCalls opts, expirePolicyCalls opts,
            some (key ++ args, r, expireValue opts (some r) args)⟩)
      else (.ok (some r), ⟨1, 1, 0, rc, cacheCalls opts, expirePolicyCalls opts, none⟩)

/-- One run of the async factory body of the memoized function
(src/mod.ts lines 86-113): read the store; return a non-nullish cached
value unless `shouldRecalculate` opts into recomputation; otherwise invoke
the underlying computation, compute the expiration, and write back a
non-nullish result unless `shouldCache` opts out.  The pair holds the
settled outcome of the run and the log of effects performed. -/
def runFactory {E R : Type} (opts : KvMemoizeOptions R) (key args : List KvKeyPart)
    (env : Env E R) : Except E (Option R) × RunLog R :=
  match env.getResult with
  | .error e => (.error e, ⟨1, 0, 0, 0, 0, 0, none⟩)
  | .ok cachedResult =>
    match cachedResult with
    | some v =>
      match opts.shouldRecalculate with
      | none => (.ok (some v), ⟨1, 0, 0, 0, 0, 0, none⟩)
      | some f =>
        if f v args then computeStep opts key args env 1
        else (.ok (some v), ⟨1, 0, 0, 1, 0, 0, none⟩)
    | none => computeStep opts key args env 0

/-- The backing store restricted to what the engine uses of it: a partial
mapping from composite keys to non-nullish stored values.  `none` models
both an absent entry and a stored nullish value, which the engine cannot
tell apart (`(await db.get(key)).value` is null in both cases). -/
def Store (R : Type) := List KvKeyPart → Option R

/-- Effect of a successful `db.set` on the store. -/
def setStore {R : Type} [DecidableEq R] (s : Store R) (k : List KvKeyPart) (v : R) :
    Store R :=
  fun k2 => if k2 = k then some v else s k2

/-- One factory run against an explicit store state with a succeeding
read and write: returns the settled outcome, the store after the run, and
the effect log. -/
def runFactoryStore {E R : Type} [DecidableEq R] (opts : KvMemoizeOptions R)
    (key args : List KvKeyPart) (s : Store R) (fnRes : Except E (Option R)) :
    Except E (Option R) × Store R × RunLog R :=
  let y := runFactory opts key args ⟨.ok (s (key ++ args)), fnRes, .ok ()⟩
  match y.2.written with
  | some (k, v, _) => (y.1, setStore s k v, y.2)
  | none => (y.1, s, y.2)

/-- The in-process coalescing state of one memoized function: the `cache`
map from fingerprints to pending promises (src/mod.ts line 78), with
promises identified by a counter.  The association list holds at most one
entry per fingerprint, mirroring a JS `Map`. -/
structure EngineState where
  inflight : List (List Char × Nat)
  nextId : Nat

/-- Lookup in the coalescing map (`cache.get(cacheKey)`,
src/mod.ts line 82). -/
def lookupFp : List (List Char × Nat) → List Char → Option Nat
  | [], _ => none
  | (k, v) :: rest, fp => if k = fp then some v else lookupFp rest fp

/-- Removal from the coalescing map (`cache.delete(cacheKey)`,
src/mod.ts line 114). -/
def removeFp : List (List Char × Nat) → List Char → List (List Char × Nat)
  | [], _ => []
  | (k, v) :: rest, fp => if k = fp then rest else (k, v) :: removeFp rest fp

/-- One call of the memoized function up to obtaining a promise
(src/mod.ts lines 80-84 and 114-117): if the fingerprint already maps to
a pending promise, return it without creating anything; otherwise create
a fresh promise, register it, and report that this call ran the factory.
The result is the promise received by the caller, whether this call ran
the factory, and the state after the call. -/
def invoke (st : EngineState) (fp : List Char) : Nat × Bool × EngineState :=
  match lookupFp st.inflight fp with
  | some p => (p, false, st)
  | none => (st.nextId, true, ⟨(fp, st.nextId) :: st.inflight, st.nextId + 1⟩)

/-- Settlement of the promise registered under `fp`: the
`.finally(() => cache.delete(cacheKey))` handler (src/mod.ts line 114)
removes the entry regardless of the outcome the promise settled with. -/
def settle {E R : Type} (st : EngineState) (fp : List Char)
    (outcome : Except E (Option R)) : EngineState :=
  ⟨removeFp st.inflight fp, st.nextId⟩

/-- A sequence of `n` calls with the same fingerprint, none of which
settles in between: the list collects each caller's promise and whether
that caller ran the factory. -/
def invokeN : EngineState → List Char → Nat → List (Nat × Bool) × EngineState
  | st, _, 0 => ([], st)
  | st, fp, n + 1 =>
    let r := invoke st fp
    let rest := invokeN r.2.2 fp n
    ((r.1, r.2.1) :: rest.1, rest.2)

/-- The coalescing map holds at most one entry per fingerprint. -/
def keysNodup (l : List (List Char × Nat)) : Prop :=
  (l.map Prod.fst).Nodup

theorem invoke_joined (st : EngineState) (fp : List Char) (p : Nat)
    (h : lookupFp st.inflight fp = some p) : invoke st fp = (p, false, st) := by
  simp [invoke, h]

theorem invoke_fresh (st : EngineState) (fp : List Char)
    (h : lookupFp st.inflight fp = none) :
    invoke st fp = (st.nextId, true, ⟨(fp, st.nextId) :: st.inflight, st.nextId + 1⟩) := by
  simp [invoke, h]

theorem invokeN_joined (fp : List Char) (p : Nat) : ∀ n : Nat, ∀ st : EngineState,
    lookupFp st.inflight fp = some p →
    invokeN st fp n = (List.replicate n (p, false), st) := by
  intro n
  induction n with
  | zero => intro st _; rfl
  | succ m ih =>
    intro st h
    simp only [invokeN, invoke_joined st fp p h, ih st h, List.replicate_succ]

theorem lookupFp_cons_self (l : List (List Char × Nat)) (fp : List Char) (p : Nat) :
    lookupFp ((fp, p) :: l) fp = some p := by
  simp [lookupFp]

theorem lookupFp_eq_none_of_not_mem (fp : List Char) :
    ∀ l : List (List Char × Nat), fp ∉ l.map Prod.fst → lookupFp l fp = none := by
  intro l
  induction l with
  | nil => intro _; rfl
  | cons e rest ih =>
    intro h
    obtain ⟨k, v⟩ := e
    simp only [List.map_cons, List.mem_cons] at h
    push_neg at h
    simp only [lookupFp]
    rw [if_neg (fun hk => h.1 hk.symm)]
    exact ih h.2

theorem not_mem_of_lookupFp_eq_none (fp : List Char) :
    ∀ l : List (List Char × Nat), lookupFp l fp = none → fp ∉ l.map Prod.fst := by
  intro l
  induction l with
  | nil => intro _; simp
  | cons e rest ih =>
    intro h
    obtain ⟨k, v⟩ := e
    simp only [lookupFp] at h
    split at h
    · exact absurd h (by simp)
    · rename_i hk
      simp only [List.map_cons, List.mem_cons]
      push_neg
      exact ⟨fun hfk => hk hfk.symm, ih h⟩

theorem removeFp_sublist (fp : List Char) :
    ∀ l : List (List Char × Nat), List.Sublist (removeFp l fp) l := by
  intro l
  induction l with
  | nil => simp [removeFp]
  | cons e rest ih =>
    obtain ⟨k, v⟩ := e
    simp only [removeFp]
    split
    · exact List.sublist_cons_self (k, v) rest
    · exact List.Sublist.cons₂ (k, v) ih

theorem keysNodup_removeFp (l : List (List Char × Nat)) (fp : List Char)
    (h : keysNodup l) : keysNodup (removeFp l fp) :=
  List.Nodup.sublist (List.Sublist.map Prod.fst (removeFp_sublist fp l)) h

theorem lookupFp_removeFp (fp : List Char) : ∀ l : List (List Char × Nat),
    keysNodup l → lookupFp (removeFp l fp) fp = none := by
  intro l
  induction l with
  | nil => intro _; rfl
  | cons e rest ih =>
    intro h
    obtain ⟨k, v⟩ := e
    have hnd : keysNodup rest := by
      simpa [keysNodup, List.map_cons] using (List.nodup_cons.mp h).2
    simp only [removeFp]
    split
    · rename_i hk
      refine lookupFp_eq_none_of_not_mem fp rest ?_
      have h1 : k ∉ rest.map Prod.fst := by
        simpa [keysNodup, List.map_cons] using (List.nodup_cons.mp h).1
      rw [hk] at h1
      exact h1
    · rename_i hk
      simp only [lookupFp, if_neg hk]
      exact ih hnd

theorem removeFp_of_lookupFp_none (fp : List Char) : ∀ l : List (List Char × Nat),
    lookupFp l fp = none → removeFp l fp = l := by
  intro l
  induction l with
  | nil => intro _; rfl
  | cons e rest ih =>
    intro h
    obtain ⟨k, v⟩ := e
    simp only [lookupFp] at h
    split at h
    · exact absurd h (by simp)
    · rename_i hk
      simp only [removeFp, if_neg hk, ih h]

/-- Reduction of `runFactory` on a failed store read. -/
theorem runFactory_eq_get_error {E R : Type} (opts : KvMemoizeOptions R)
    (key args : List KvKeyPart) (env : Env E R) (e : E)
    (h : env.getResult = .error e) :
    runFactory opts key args env = (.error e, ⟨1, 0, 0, 0, 0, 0, none⟩) := by
  unfold runFactory
  rw [h]

/-- Reduction of `runFactory` on a store miss. -/
theorem runFactory_eq_of_miss {E R : Type} (opts : KvMemoizeOptions R)
    (key args : List KvKeyPart) (env : Env E R) (h : env.getResult = .ok none) :
    runFactory opts key args env = computeStep opts key args env 0 := by
  unfold runFactory
  rw [h]

/-- Reduction of `runFactory` on a hit with no `shouldRecalculate`
policy: the cached value is returned as is. -/
theorem runFactory_eq_of_hit {E R : Type} (opts : KvMemoizeOptions R)
    (key args : List KvKeyPart) (env : Env E R) (v : R)
    (h : env.getResult = .ok (some v)) (hsr : opts.shouldRecalculate = none) :
    runFactory opts key args env = (.ok (some v), ⟨1, 0, 0, 0, 0, 0, none⟩) := by
  unfold runFactory
  rw [h, hsr]

/-- Reduction of `runFactory` on a hit whose `shouldRecalculate` call
declines recomputation: the cached value is returned as is. -/
theorem runFactory_eq_of_hit_decline {E R : Type} (opts : KvMemoizeOptions R)
    (key args : List KvKeyPart) (env : Env E R) (v : R)
    (f : R → List KvKeyPart → Bool) (h : env.getResult = .ok (some v))
    (hsr : opts.shouldRecalculate = some f) (hf : f v args = false) :
    runFactory opts key args env = (.ok (some v), ⟨1, 0, 0, 1, 0, 0, none⟩) := by
  unfold runFactory
  rw [h, hsr]
  simp [hf]

/-- Reduction of `runFactory` on a hit whose `shouldRecalculate` call
forces recomputation. -/
theorem runFactory_eq_of_recalc {E R : Type} (opts : KvMemoizeOptions R)
    (key args : List KvKeyPart) (env : Env E R) (v : R)
    (f : R → List KvKeyPart → Bool) (h : env.getResult = .ok (some v))
    (hsr : opts.shouldRecalculate = some f) (hf : f v args = true) :
    runFactory opts key args env = computeStep opts key args env 1 := by
  unfold runFactory
  rw [h, hsr]
  simp [hf]

/-- Reduction of `computeStep` on a failed underlying computation. -/
theorem computeStep_eq_fn_error {E R : Type} (opts : KvMemoizeOptions R)
    (key args : List KvKeyPart) (env : Env E R) (rc : Nat) (e : E)
    (h : env.fnResult = .error e) :
    computeStep opts key args env rc = (.error e, ⟨1, 1, 0, rc, 0, 0, none⟩) := by
  unfold computeStep
  rw [h]

/-- Reduction of `computeStep` on a nullish fresh result. -/
theorem computeStep_eq_nullish {E R : Type} (opts : KvMemoizeOptions R)
    (key args : List KvKeyPart) (env : Env E R) (rc : Nat)
    (h : env.fnResult = .ok none) :
    computeStep opts key args env rc =
      (.ok none, ⟨1, 1, 0, rc, 0, expirePolicyCalls opts, none⟩) := by
  unfold computeStep
  rw [h]

/-- Reduction of `computeStep` on a non-nullish fresh result that passes
the cache policy and whose write succeeds. -/
theorem computeStep_eq_write_ok {E R : Type} (opts : KvMemoizeOptions R)
    (key args : List KvKeyPart) (env : Env E R) (rc : Nat) (r : R)
    (h : env.fnResult = .ok (some r)) (hc : passCache opts r args = true)
    (hs : env.setResult = .ok ()) :
    computeStep opts key args env rc =
      (.ok (some r), ⟨1, 1, 1, rc, cacheCalls opts, expirePolicyCalls opts,
        some (key ++ args, r, expireValue opts (some r) args)⟩) := by
  unfold computeStep
  rw [h]
  simp only [hc, if_true]
  rw [hs]

/-- Reduction of `computeStep` on a non-nullish fresh result that passes
the cache policy but whose write fails. -/
theorem computeStep_eq_write_error {E R : Type} (opts : KvMemoizeOptions R)
    (key args : List KvKeyPart) (env : Env E R) (rc : Nat) (r : R) (e : E)
    (h : env.fnResult = .ok (some r)) (hc : passCache opts r args = true)
    (hs : env.setResult = .error e) :
    computeStep opts key args env rc =
      (.error e, ⟨1, 1, 1, rc, cacheCalls opts, expirePolicyCalls opts,
        some (key ++ args, r, expireValue opts (some r) args)⟩) := by
  unfold computeStep
  rw [h]
  simp only [hc, if_true]
  rw [hs]

/-- Reduction of `computeStep` on a non-nullish fresh result that the
cache policy declines to write. -/
theorem computeStep_eq_nocache {E R : Type} (opts : KvMemoizeOptions R)
    (key args : List KvKeyPart) (env : Env E R) (rc : Nat) (r : R)
    (h : env.fnResult = .ok (some r)) (hc : passCache opts r args = false) :
    computeStep opts key args env rc =
      (.ok (some r), ⟨1, 1, 0, rc, cacheCalls opts, expirePolicyCalls opts, none⟩) := by
  unfold computeStep
  rw [h]
  simp [hc]

/-- Effect counters of a single factory run: the store is read exactly
once. -/
theorem runFactory_getCount {E R : Type} (opts : KvMemoizeOptions R)
    (key args : List KvKeyPart) (env : Env E R) :
    (runFactory opts key args env).2.getCount = 1 := by
  unfold runFactory computeStep
  repeat' split
  all_goals rfl

/-- Effect counters of a single factory run: the underlying computation
is invoked at most once. -/
theorem runFactory_fnCount_le {E R : Type} (opts : KvMemoizeOptions R)
    (key args : List KvKeyPart) (env : Env E R) :
    (runFactory opts key args env).2.fnCount ≤ 1 := by
  unfold runFactory computeStep
  repeat' split
  all_goals simp

/-- Effect counters of a single factory run: the store is written at most
once. -/
theorem runFactory_setCount_le {E R : Type} (opts : KvMemoizeOptions R)
    (key args : List KvKeyPart) (env : Env E R) :
    (runFactory opts key args env).2.setCount ≤ 1 := by
  unfold runFactory computeStep
  repeat' split
  all_goals simp

/-- On a store miss the underlying computation is invoked exactly once. -/
theorem runFactory_fnCount_of_miss {E R : Type} (opts : KvMemoizeOptions R)
    (key args : List KvKeyPart) (env : Env E R) (h : env.getResult = .ok none) :
    (runFactory opts key args env).2.fnCount = 1 := by
  rw [runFactory_eq_of_miss opts key args env h]
  rcases hf : env.fnResult with e | c
  · rw [computeStep_eq_fn_error opts key args env 0 e hf]
  · rcases c with _ | r
    · rw [computeStep_eq_nullish opts key args env 0 hf]
    · rcases hc : passCache opts r args with _ | _
      · rw [computeStep_eq_nocache opts key args env 0 r hf hc]
      · rcases hs : env.setResult with e | u
        · rw [computeStep_eq_write_error opts key args env 0 r e hf hc hs]
        · rw [computeStep_eq_write_ok opts key args env 0 r hf hc (by rw [hs])]

/-- When the factory proceeds past the cached value, the run is a
`computeStep` (with zero or one `shouldRecalculate` call already
performed). -/
theorem runFactory_compute {E R : Type} (opts : KvMemoizeOptions R)
    (key args : List KvKeyPart) (env : Env E R) (c : Option R)
    (hget : env.getResult = .ok c) (hcp : computePath opts args c = true) :
    ∃ rc, runFactory opts key args env = computeStep opts key args env rc := by
  rcases c with _ | v
  · exact ⟨0, runFactory_eq_of_miss opts key args env hget⟩
  · rcases hsr : opts.shouldRecalculate with _ | f
    · simp [computePath, hsr] at hcp
    · have hf : f v args = true := by simpa [computePath, hsr] using hcp
      exact ⟨1, runFactory_eq_of_recalc opts key args env v f hget hsr hf⟩

/-- When the factory proceeds to a computation that yields a non-nullish
result passing the cache policy, the store is written exactly once,
whether the write itself succeeds or fails. -/
theorem runFactory_setCount_applicable {E R : Type} (opts : KvMemoizeOptions R)
    (key args : List KvKeyPart) (env : Env E R) (c : Option R) (r : R)
    (hget : env.getResult = .ok c) (hcp : computePath opts args c = true)
    (hfn : env.fnResult = .ok (some r)) (hc : passCache opts r args = true) :
    (runFactory opts key args env).2.setCount = 1 := by
  obtain ⟨rc, hrun⟩ := runFactory_compute opts key args env c hget hcp
  rw [hrun]
  rcases hs : env.setResult with e | u
  · rw [computeStep_eq_write_error opts key args env rc r e hfn hc hs]
  · rw [computeStep_eq_write_ok opts key args env rc r hfn hc (by rw [hs])]

/-- C1: when N ≥ 2 calls with identical argument lists (hence one shared
fingerprint) are all issued before any of them settles, only the first
call runs the factory and every call receives the very same promise, so
all callers receive the identical outcome; the single factory run performs
exactly one store read, at most one underlying-computation invocation
(exactly one on a store miss), at most one store write, and exactly one
store write when a write is applicable (the computation ran, its result is
non-nullish, and the cache policy accepts it); and a caller whose
fingerprint already has a registered pending computation is handed that
computation back directly without running the factory. -/
theorem concurrent_calls_coalesce {E R : Type} (st : EngineState)
    (args : List KvKeyPart) (fp : List Char) (hfp : stringifyKey args = some fp)
    (hfresh : lookupFp st.inflight fp = none) (n : Nat) (hn : 2 ≤ n)
    (opts : KvMemoizeOptions R) (key : List KvKeyPart) (env : Env E R) :
    (invokeN st fp n).1 =
      (st.nextId, true) :: List.replicate (n - 1) (st.nextId, false) ∧
    (∀ deliver : Nat → Except E (Option R),
      (invokeN st fp n).1.map (fun r => deliver r.1) =
        List.replicate n (deliver st.nextId)) ∧
    (runFactory opts key args env).2.getCount = 1 ∧
    (runFactory opts key args env).2.fnCount ≤ 1 ∧
    (env.getResult = .ok none → (runFactory opts key args env).2.fnCount = 1) ∧
    (runFactory opts key args env).2.setCount ≤ 1 ∧
    (∀ c : Option R, ∀ r : R, env.getResult = .ok c →
      computePath opts args c = true → env.fnResult = .ok (some r) →
      passCache opts r args = true →
      (runFactory opts key args env).2.setCount = 1) ∧
    (∀ st2 : EngineState, ∀ p : Nat, lookupFp st2.inflight fp = some p →
      invoke st2 fp = (p, false, st2)) := by
  obtain ⟨m, rfl⟩ : ∃ m, n = m + 1 := ⟨n - 1, by omega⟩
  have hj := invokeN_joined fp st.nextId m
    ⟨(fp, st.nextId) :: st.inflight, st.nextId + 1⟩
    (lookupFp_cons_self st.inflight fp st.nextId)
  have hlist : (invokeN st fp (m + 1)).1 =
      (st.nextId, true) :: List.replicate m (st.nextId, false) := by
    simp [invokeN, invoke_fresh st fp hfresh, hj]
  refine ⟨by simpa using hlist, ?_, runFactory_getCount opts key args env,
    runFactory_fnCount_le opts key args env,
    runFactory_fnCount_of_miss opts key args env,
    runFactory_setCount_le opts key args env,
    fun c r hget hcp hfn hc =>
      runFactory_setCount_applicable opts key args env c r hget hcp hfn hc,
    fun st2 p h => invoke_joined st2 fp p h⟩
  intro deliver
  rw [hlist]
  simp [List.map_replicate, List.replicate_succ]

/-- C5: the coalescing map holds at most one pending computation per
fingerprint at any instant (uniqueness is preserved by every call and
every settlement); a freshly registered computation is immediately
observable under its fingerprint; settlement removes the entry regardless
of the outcome (value or failure), after which the fingerprint maps to
nothing; and removal happens exactly once, a second settlement of the
same fingerprint being a no-op. -/
theorem pending_computation_unique {E R : Type} (st : EngineState) (fp : List Char)
    (hnd : keysNodup st.inflight) (o : Except E (Option R)) :
    keysNodup (invoke st fp).2.2.inflight ∧
    (lookupFp st.inflight fp = none →
      lookupFp (invoke st fp).2.2.inflight fp = some st.nextId) ∧
    keysNodup (settle st fp o).inflight ∧
    lookupFp (settle st fp o).inflight fp = none ∧
    (∀ o2 : Except E (Option R), settle st fp o2 = settle st fp o) ∧
    settle (settle st fp o) fp o = settle st fp o := by
  refine ⟨?_, ?_, ?_, ?_, fun o2 => rfl, ?_⟩
  · unfold invoke
    split
    · exact hnd
    · rename_i h
      simp only [keysNodup, List.map_cons, List.nodup_cons]
      exact ⟨not_mem_of_lookupFp_eq_none fp st.inflight h, hnd⟩
  · intro h
    rw [invoke_fresh st fp h]
    exact lookupFp_cons_self st.inflight fp st.nextId
  · exact keysNodup_removeFp st.inflight fp hnd
  · exact lookupFp_removeFp fp st.inflight hnd
  · unfold settle
    simp only [EngineState.mk.injEq, and_true]
    exact removeFp_of_lookupFp_none fp _ (lookupFp_removeFp fp st.inflight hnd)

theorem computeStep_fnCount {E R : Type} (opts : KvMemoizeOptions R)
    (key args : List KvKeyPart) (env : Env E R) (rc : Nat) :
    (computeStep opts key args env rc).2.fnCount = 1 := by
  unfold computeStep
  repeat' split
  all_goals rfl

theorem computeStep_recalcCount {E R : Type} (opts : KvMemoizeOptions R)
    (key args : List KvKeyPart) (env : Env E R) (rc : Nat) :
    (computeStep opts key args env rc).2.recalcCount = rc := by
  unfold computeStep
  repeat' split
  all_goals rfl

/-- Either no write happens, or the write carries the fresh non-nullish
result under the composite key with the configured expiration. -/
theorem runFactory_written {E R : Type} (opts : KvMemoizeOptions R)
    (key args : List KvKeyPart) (env : Env E R) :
    (runFactory opts key args env).2.written = none ∨
    ∃ r, env.fnResult = .ok (some r) ∧
      (runFactory opts key args env).2.written =
        some (key ++ args, r, expireValue opts (some r) args) := by
  rcases hget : env.getResult with e | c
  · rw [runFactory_eq_get_error opts key args env e hget]
    exact Or.inl rfl
  · rcases c with _ | v
    · rw [runFactory_eq_of_miss opts key args env hget]
      rcases hfn : env.fnResult with e | res
      · rw [computeStep_eq_fn_error opts key args env 0 e hfn]
        exact Or.inl rfl
      · rcases res with _ | r
        · rw [computeStep_eq_nullish opts key args env 0 hfn]
          exact Or.inl rfl
        · rcases hc : passCache opts r args with _ | _
          · rw [computeStep_eq_nocache opts key args env 0 r hfn hc]
            exact Or.inl rfl
          · rcases hs : env.setResult with e | u
            · rw [computeStep_eq_write_error opts key args env 0 r e hfn hc hs]
              exact Or.inr ⟨r, rfl, rfl⟩
            · rw [computeStep_eq_write_ok opts key args env 0 r hfn hc (by rw [hs])]
              exact Or.inr ⟨r, rfl, rfl⟩
    · rcases hsr : opts.shouldRecalculate with _ | f
      · rw [runFactory_eq_of_hit opts key args env v hget hsr]
        exact Or.inl rfl
      · rcases hf : f v args with _ | _
        · rw [runFactory_eq_of_hit_decline opts key args env v f hget hsr hf]
          exact Or.inl rfl
        · rw [runFactory_eq_of_recalc opts key args env v f hget hsr hf]
          rcases hfn : env.fnResult with e | res
          · rw [computeStep_eq_fn_error opts key args env 1 e hfn]
            exact Or.inl rfl
          · rcases res with _ | r
            · rw [computeStep_eq_nullish opts key args env 1 hfn]
              exact Or.inl rfl
            · rcases hc : passCache opts r args with _ | _
              · rw [computeStep_eq_nocache opts key args env 1 r hfn hc]
                exact Or.inl rfl
              · rcases hs : env.setResult with e | u
                · rw [computeStep_eq_write_error opts key args env 1 r e hfn hc hs]
                  exact Or.inr ⟨r, rfl, rfl⟩
                · rw [computeStep_eq_write_ok opts key args env 1 r hfn hc (by rw [hs])]
                  exact Or.inr ⟨r, rfl, rfl⟩

/-- A nullish fresh result leads to no `shouldCache` call, no write
attempt, and no write payload, on every path of the run. -/
theorem runFactory_no_write_of_fn_nullish {E R : Type} (opts : KvMemoizeOptions R)
    (key args : List KvKeyPart) (env : Env E R) (hfn : env.fnResult = .ok none) :
    (runFactory opts key args env).2.cacheCount = 0 ∧
    (runFactory opts key args env).2.setCount = 0 ∧
    (runFactory opts key args env).2.written = none := by
  rcases hget : env.getResult with e | c
  · rw [runFactory_eq_get_error opts key args env e hget]
    exact ⟨rfl, rfl, rfl⟩
  · rcases c with _ | v
    · rw [runFactory_eq_of_miss opts key args env hget,
        computeStep_eq_nullish opts key args env 0 hfn]
      exact ⟨rfl, rfl, rfl⟩
    · rcases hsr : opts.shouldRecalculate with _ | f
      · rw [runFactory_eq_of_hit opts key args env v hget hsr]
        exact ⟨rfl, rfl, rfl⟩
      · rcases hf : f v args with _ | _
        · rw [runFactory_eq_of_hit_decline opts key args env v f hget hsr hf]
          exact ⟨rfl, rfl, rfl⟩
        · rw [runFactory_eq_of_recalc opts key args env v f hget hsr hf,
            computeStep_eq_nullish opts key args env 1 hfn]
          exact ⟨rfl, rfl, rfl⟩

/-- A non-nullish fresh result that the cache policy declines leads to no
write payload, on every path of the run. -/
theorem runFactory_written_none_of_nocache {E R : Type} (opts : KvMemoizeOptions R)
    (key args : List KvKeyPart) (env : Env E R) (r : R)
    (hfn : env.fnResult = .ok (some r)) (hc : passCache opts r args = false) :
    (runFactory opts key args env).2.written = none := by
  rcases hget : env.getResult with e | c
  · rw [runFactory_eq_get_error opts key args env e hget]
  · rcases c with _ | v
    · rw [runFactory_eq_of_miss opts key args env hget,
        computeStep_eq_nocache opts key args env 0 r hfn hc]
    · rcases hsr : opts.shouldRecalculate with _ | f
      · rw [runFactory_eq_of_hit opts key args env v hget hsr]
      · rcases hf : f v args with _ | _
        · rw [runFactory_eq_of_hit_decline opts key args env v f hget hsr hf]
        · rw [runFactory_eq_of_recalc opts key args env v f hget hsr hf,
            computeStep_eq_nocache opts key args env 1 r hfn hc]

/-- The effect log of a store-passing run is the effect log of the
underlying factory run. -/
theorem runFactoryStore_log {E R : Type} [DecidableEq R] (opts : KvMemoizeOptions R)
    (key args : List KvKeyPart) (s : Store R) (fnRes : Except E (Option R)) :
    (runFactoryStore opts key args s fnRes).2.2 =
      (runFactory opts key args ⟨.ok (s (key ++ args)), fnRes, .ok ()⟩).2 := by
  simp only [runFactoryStore]
  rcases hw : (runFactory opts key args
      ⟨.ok (s (key ++ args)), fnRes, .ok ()⟩).2.written with _ | ⟨k, v, ex⟩ <;> rfl

/-- The settled outcome of a store-passing run is the outcome of the
underlying factory run. -/
theorem runFactoryStore_fst {E R : Type} [DecidableEq R] (opts : KvMemoizeOptions R)
    (key args : List KvKeyPart) (s : Store R) (fnRes : Except E (Option R)) :
    (runFactoryStore opts key args s fnRes).1 =
      (runFactory opts key args ⟨.ok (s (key ++ args)), fnRes, .ok ()⟩).1 := by
  simp only [runFactoryStore]
  rcases hw : (runFactory opts key args
      ⟨.ok (s (key ++ args)), fnRes, .ok ()⟩).2.written with _ | ⟨k, v, ex⟩ <;> rfl

/-- The store after a store-passing run is the old store when no write was
attempted, and the old store updated at the written key otherwise. -/
theorem runFactoryStore_store {E R : Type} [DecidableEq R] (opts : KvMemoizeOptions R)
    (key args : List KvKeyPart) (s : Store R) (fnRes : Except E (Option R)) :
    (runFactoryStore opts key args s fnRes).2.1 =
      match (runFactory opts key args ⟨.ok (s (key ++ args)), fnRes, .ok ()⟩).2.written with
      | some (k, v, _) => setStore s k v
      | none => s := by
  simp only [runFactoryStore]
  rcases hw : (runFactory opts key args
      ⟨.ok (s (key ++ args)), fnRes, .ok ()⟩).2.written with _ | ⟨k, v, ex⟩ <;> rfl

/-- C3: nullish values act as a no-value sentinel at both ends of the
cache: a nullish store read bypasses `shouldRecalculate` entirely and the
underlying computation runs; a nullish fresh result is never passed to
`shouldCache` and no store write occurs; and since nothing was written, a
subsequent identical call re-invokes the underlying computation. -/
theorem nullish_sentinel {E R : Type} [DecidableEq R] (opts : KvMemoizeOptions R)
    (key args : List KvKeyPart) :
    (∀ env : Env E R, env.getResult = .ok none →
      (runFactory opts key args env).2.recalcCount = 0 ∧
      (runFactory opts key args env).2.fnCount = 1) ∧
    (∀ env : Env E R, env.fnResult = .ok none →
      (runFactory opts key args env).2.cacheCount = 0 ∧
      (runFactory opts key args env).2.setCount = 0 ∧
      (runFactory opts key args env).2.written = none) ∧
    (∀ (s : Store R) (fnRes2 : Except E (Option R)), s (key ++ args) = none →
      (runFactoryStore opts key args s (Except.ok none : Except E (Option R))).2.1 = s ∧
      (runFactoryStore opts key args
        ((runFactoryStore opts key args s
          (Except.ok none : Except E (Option R))).2.1) fnRes2).2.2.fnCount = 1) := by
  refine ⟨?_, ?_, ?_⟩
  · intro env hget
    rw [runFactory_eq_of_miss opts key args env hget]
    exact ⟨computeStep_recalcCount opts key args env 0,
      computeStep_fnCount opts key args env 0⟩
  · intro env hfn
    exact runFactory_no_write_of_fn_nullish opts key args env hfn
  · intro s fnRes2 hs
    have henv : (⟨.ok (s (key ++ args)), Except.ok none, .ok ()⟩ : Env E R).getResult
        = .ok none := by
      simp [hs]
    have hstore : (runFactoryStore opts key args s
        (Except.ok none : Except E (Option R))).2.1 = s := by
      rw [runFactoryStore_store]
      rw [runFactory_eq_of_miss opts key args _ henv,
        computeStep_eq_nullish opts key args _ 0 rfl]
    refine ⟨hstore, ?_⟩
    rw [hstore]
    rw [runFactoryStore_log]
    exact runFactory_fnCount_of_miss opts key args _ (by simp [hs])

/-- C4: a non-nullish cached value is returned as is, with no
underlying-computation invocation and no write, when `shouldRecalculate`
is absent or declines; when `shouldRecalculate` opts in, the underlying
computation is invoked; and a fresh non-nullish result that passes the
cache policy (which defaults to accepting) is written exactly once under
the composite key (namespace elements followed by argument elements,
order preserved) with the configured expiration attached. -/
theorem hit_and_write_sequence {E R : Type} (opts : KvMemoizeOptions R)
    (key args : List KvKeyPart) :
    (∀ env : Env E R, ∀ v : R, env.getResult = .ok (some v) →
      opts.shouldRecalculate = none →
      (runFactory opts key args env).1 = .ok (some v) ∧
      (runFactory opts key args env).2.fnCount = 0 ∧
      (runFactory opts key args env).2.setCount = 0) ∧
    (∀ env : Env E R, ∀ v : R, ∀ f : R → List KvKeyPart → Bool,
      env.getResult = .ok (some v) → opts.shouldRecalculate = some f →
      f v args = false →
      (runFactory opts key args env).1 = .ok (some v) ∧
      (runFactory opts key args env).2.fnCount = 0 ∧
      (runFactory opts key args env).2.setCount = 0) ∧
    (∀ env : Env E R, ∀ v : R, ∀ f : R → List KvKeyPart → Bool,
      env.getResult = .ok (some v) → opts.shouldRecalculate = some f →
      f v args = true →
      (runFactory opts key args env).2.fnCount = 1) ∧
    (∀ env : Env E R, ∀ c : Option R, ∀ r : R, env.getResult = .ok c →
      computePath opts args c = true → env.fnResult = .ok (some r) →
      passCache opts r args = true →
      (runFactory opts key args env).2.setCount = 1 ∧
      (runFactory opts key args env).2.written =
        some (key ++ args, r, expireValue opts (some r) args)) := by
  refine ⟨?_, ?_, ?_, ?_⟩
  · intro env v hget hsr
    rw [runFactory_eq_of_hit opts key args env v hget hsr]
    exact ⟨rfl, rfl, rfl⟩
  · intro env v f hget hsr hf
    rw [runFactory_eq_of_hit_decline opts key args env v f hget hsr hf]
    exact ⟨rfl, rfl, rfl⟩
  · intro env v f hget hsr hf
    rw [runFactory_eq_of_recalc opts key args env v f hget hsr hf]
    exact computeStep_fnCount opts key args env 1
  · intro env c r hget hcp hfn hc
    obtain ⟨rc, hrun⟩ := runFactory_compute opts key args env c hget hcp
    rw [hrun]
    rcases hs : env.setResult with e | u
    · rw [computeStep_eq_write_error opts key args env rc r e hfn hc hs]
      exact ⟨rfl, rfl⟩
    · rw [computeStep_eq_write_ok opts key args env rc r hfn hc (by rw [hs])]
      exact ⟨rfl, rfl⟩

/-- C6: when the underlying computation fails, the shared computation
settles with that failure, no store write is attempted, the coalescer
entry is removed by settlement, every joined caller is handed the same
pending computation (hence the same failure), and a following call with
the same fingerprint runs the factory again (no poisoning). -/
theorem computation_failure_propagates {E R : Type} (opts : KvMemoizeOptions R)
    (key args : List KvKeyPart) (env : Env E R) (c : Option R) (e : E)
    (fp : List Char) (st : EngineState) (hget : env.getResult = .ok c)
    (hcp : computePath opts args c = true) (hfn : env.fnResult = .error e)
    (hnd : keysNodup st.inflight) :
    (runFactory opts key args env).1 = .error e ∧
    (runFactory opts key args env).2.setCount = 0 ∧
    (runFactory opts key args env).2.written = none ∧
    lookupFp (settle st fp (Except.error e : Except E (Option R))).inflight fp = none ∧
    (invoke (settle st fp (Except.error e : Except E (Option R))) fp).2.1 = true ∧
    (∀ st2 : EngineState, ∀ p : Nat, lookupFp st2.inflight fp = some p →
      invoke st2 fp = (p, false, st2)) := by
  obtain ⟨rc, hrun⟩ := runFactory_compute opts key args env c hget hcp
  rw [hrun, computeStep_eq_fn_error opts key args env rc e hfn]
  have hrem : lookupFp (settle st fp (Except.error e : Except E (Option R))).inflight fp
      = none := lookupFp_removeFp fp st.inflight hnd
  refine ⟨rfl, rfl, rfl, hrem, ?_, fun st2 p h => invoke_joined st2 fp p h⟩
  rw [invoke_fresh _ fp hrem]

/-- C7: when the underlying computation succeeds with a non-nullish
result but the store write fails, the computation settles with the write
failure and no caller can observe the computed value. -/
theorem write_failure_masks_value {E R : Type} (opts : KvMemoizeOptions R)
    (key args : List KvKeyPart) (env : Env E R) (c : Option R) (r : R) (e : E)
    (hget : env.getResult = .ok c) (hcp : computePath opts args c = true)
    (hfn : env.fnResult = .ok (some r)) (hc : passCache opts r args = true)
    (hs : env.setResult = .error e) :
    (runFactory opts key args env).1 = .error e ∧
    (∀ v : Option R, (runFactory opts key args env).1 ≠ .ok v) := by
  obtain ⟨rc, hrun⟩ := runFactory_compute opts key args env c hget hcp
  rw [hrun, computeStep_eq_write_error opts key args env rc r e hfn hc hs]
  exact ⟨rfl, fun v h => by simp at h⟩

/-- C8 (amended): the `expireIn` policy function is invoked exactly once
whenever the underlying computation runs and yields a result, whether that
result is nullish or not (the source computes the expiration before the
nullish check, and types the policy's parameter as possibly nullish); it
is not invoked on a cache hit served without recomputation, nor when the
underlying computation fails. -/
theorem expire_policy_runs_with_computation {E R : Type} (opts : KvMemoizeOptions R)
    (key args : List KvKeyPart) :
    (∀ env : Env E R, ∀ c : Option R, ∀ res : Option R, env.getResult = .ok c →
      computePath opts args c = true → env.fnResult = .ok res →
      (runFactory opts key args env).2.expireCount = expirePolicyCalls opts) ∧
    (∀ env : Env E R, ∀ v : R, env.getResult = .ok (some v) →
      computePath opts args (some v) = false →
      (runFactory opts key args env).2.expireCount = 0) ∧
    (∀ env : Env E R, ∀ c : Option R, ∀ e : E, env.getResult = .ok c →
      computePath opts args c = true → env.fnResult = .error e →
      (runFactory opts key args env).2.expireCount = 0) := by
  refine ⟨?_, ?_, ?_⟩
  · intro env c res hget hcp hfn
    obtain ⟨rc, hrun⟩ := runFactory_compute opts key args env c hget hcp
    rw [hrun]
    rcases res with _ | r
    · rw [computeStep_eq_nullish opts key args env rc hfn]
    · rcases hc : passCache opts r args with _ | _
      · rw [computeStep_eq_nocache opts key args env rc r hfn hc]
      · rcases hs : env.setResult with e | u
        · rw [computeStep_eq_write_error opts key args env rc r e hfn hc hs]
        · rw [computeStep_eq_write_ok opts key args env rc r hfn hc (by rw [hs])]
  · intro env v hget hcp
    rcases hsr : opts.shouldRecalculate with _ | f
    · rw [runFactory_eq_of_hit opts key args env v hget hsr]
    · have hf : f v args = false := by simpa [computePath, hsr] using hcp
      rw [runFactory_eq_of_hit_decline opts key args env v f hget hsr hf]
  · intro env c e hget hcp hfn
    obtain ⟨rc, hrun⟩ := runFactory_compute opts key args env c hget hcp
    rw [hrun, computeStep_eq_fn_error opts key args env rc e hfn]

/-- Options used by the C8 counterexample: an `expireIn` policy function
and no other policies. -/
def c8opts : KvMemoizeOptions Nat :=
  ⟨ExpireIn.fn (fun _ _ => some 5), none, none⟩

/-- Environment of the C8 counterexample: a store miss and an underlying
computation that yields a nullish result. -/
def c8env : Env Unit Nat :=
  ⟨.ok none, .ok none, .ok ()⟩

/-- C8 (counterexample): on an invocation whose underlying computation
yields a nullish result, the configured `expireIn` function IS called
(the source computes `expireIn(result, ...args)` on line 99 before the
`result != null` check on line 103), refuting the claim that it is never
called in that case. -/
theorem expireIn_called_on_nullish_result :
    (runFactory c8opts [] [] c8env).1 = .ok none ∧
    (runFactory c8opts [] [] c8env).2.expireCount = 1 :=
  ⟨rfl, rfl⟩

/-- C10 (amended): the engine never deletes or clears a store entry; the
only mutation a run can perform is a single set of the composite key to
the non-nullish fresh result; when `shouldRecalculate` forces
recomputation and the fresh result is nullish, or `shouldCache` declines
the fresh result, the store is left completely unchanged, so the next
identical call again finds the stale value; a call that finds the stale
value invokes the underlying computation again when `shouldRecalculate`
still opts in, and is served the stale value without any computation
exactly when `shouldRecalculate` is absent or declines. -/
theorem store_frame {E R : Type} [DecidableEq R] (opts : KvMemoizeOptions R)
    (key args : List KvKeyPart) (s : Store R) (fnRes : Except E (Option R)) :
    (∀ k, k ≠ key ++ args → (runFactoryStore opts key args s fnRes).2.1 k = s k) ∧
    (∀ k, ∀ v : R, s k = some v →
      ∃ w, (runFactoryStore opts key args s fnRes).2.1 k = some w) ∧
    ((runFactoryStore opts key args s fnRes).2.1 (key ++ args) ≠ s (key ++ args) →
      ∃ r, fnRes = .ok (some r) ∧
        (runFactoryStore opts key args s fnRes).2.1 (key ++ args) = some r) ∧
    (∀ stale : R, ∀ f : R → List KvKeyPart → Bool, s (key ++ args) = some stale →
      opts.shouldRecalculate = some f → f stale args = true → fnRes = .ok none →
      (runFactoryStore opts key args s fnRes).2.1 = s) ∧
    (∀ r : R, fnRes = .ok (some r) → passCache opts r args = false →
      (runFactoryStore opts key args s fnRes).2.1 = s) ∧
    (∀ stale : R, ∀ f : R → List KvKeyPart → Bool, s (key ++ args) = some stale →
      opts.shouldRecalculate = some f → f stale args = true →
      (runFactoryStore opts key args s fnRes).2.2.fnCount = 1) ∧
    (∀ stale : R, s (key ++ args) = some stale →
      (opts.shouldRecalculate = none ∨
        ∃ f, opts.shouldRecalculate = some f ∧ f stale args = false) →
      (runFactoryStore opts key args s fnRes).1 = .ok (some stale) ∧
      (runFactoryStore opts key args s fnRes).2.2.fnCount = 0) := by
  have hstore := runFactoryStore_store opts key args s fnRes
  refine ⟨?_, ?_, ?_, ?_, ?_, ?_, ?_⟩
  · intro k hk
    rw [hstore]
    rcases runFactory_written opts key args
        ⟨.ok (s (key ++ args)), fnRes, .ok ()⟩ with hw | ⟨r, hfn, hw⟩ <;> rw [hw]
    simp [setStore, if_neg hk]
  · intro k v hv
    rw [hstore]
    rcases runFactory_written opts key args
        ⟨.ok (s (key ++ args)), fnRes, .ok ()⟩ with hw | ⟨r, hfn, hw⟩ <;> rw [hw]
    · exact ⟨v, hv⟩
    · by_cases hk : k = key ++ args
      · exact ⟨r, by simp [setStore, hk]⟩
      · exact ⟨v, by simp [setStore, if_neg hk, hv]⟩
  · rw [hstore]
    rcases runFactory_written opts key args
        ⟨.ok (s (key ++ args)), fnRes, .ok ()⟩ with hw | ⟨r, hfn, hw⟩ <;> rw [hw]
    · intro hne
      exact absurd rfl hne
    · intro _
      exact ⟨r, by simpa using hfn, by simp [setStore]⟩
  · intro stale f hs hsr hf hres
    rw [hstore]
    have hget : (⟨.ok (s (key ++ args)), fnRes, .ok ()⟩ : Env E R).getResult
        = .ok (some stale) := by simp [hs]
    rw [runFactory_eq_of_recalc opts key args _ stale f hget hsr hf,
      computeStep_eq_nullish opts key args _ 1 (by simp [hres])]
  · intro r hres hc
    rw [hstore]
    rw [runFactory_written_none_of_nocache opts key args _ r (by simp [hres]) hc]
  · intro stale f hs hsr hf
    rw [runFactoryStore_log]
    have hget : (⟨.ok (s (key ++ args)), fnRes, .ok ()⟩ : Env E R).getResult
        = .ok (some stale) := by simp [hs]
    rw [runFactory_eq_of_recalc opts key args _ stale f hget hsr hf]
    exact computeStep_fnCount opts key args _ 1
  · intro stale hs hdecl
    have hget : (⟨.ok (s (key ++ args)), fnRes, .ok ()⟩ : Env E R).getResult
        = .ok (some stale) := by simp [hs]
    rcases hdecl with hsr | ⟨f, hsr, hf⟩
    · constructor
      · rw [runFactoryStore_fst, runFactory_eq_of_hit opts key args _ stale hget hsr]
      · rw [runFactoryStore_log, runFactory_eq_of_hit opts key args _ stale hget hsr]
    · constructor
      · rw [runFactoryStore_fst,
          runFactory_eq_of_hit_decline opts key args _ stale f hget hsr hf]
      · rw [runFactoryStore_log,
          runFactory_eq_of_hit_decline opts key args _ stale f hget hsr hf]

/-- Options used by the C10 counterexample: `shouldRecalculate` always
forces recomputation. -/
def c10opts : KvMemoizeOptions Nat :=
  ⟨ExpireIn.none, some (fun _ _ => true), none⟩

/-- Store used by the C10 counterexample: the composite key (empty
namespace, no arguments) holds the stale value 7. -/
def c10store : Store Nat :=
  fun k => if k = [] then some 7 else none

/-- C10 (counterexample): with `shouldRecalculate` forcing recomputation
and the computation yielding a nullish result, the stale value 7 stays in
the store, but the next identical call is NOT served that stale value as
a hit: it invokes the underlying computation again and settles with the
fresh nullish result. -/
theorem stale_value_not_served_as_hit :
    (runFactoryStore c10opts [] [] c10store
      (Except.ok none : Except Unit (Option Nat))).2.1 [] = some 7 ∧
    (runFactoryStore c10opts [] []
      ((runFactoryStore c10opts [] [] c10store
        (Except.ok none : Except Unit (Option Nat))).2.1)
      (Except.ok none : Except Unit (Option Nat))).1 ≠ .ok (some 7) ∧
    (runFactoryStore c10opts [] []
      ((runFactoryStore c10opts [] [] c10store
        (Except.ok none : Except Unit (Option Nat))).2.1)
      (Except.ok none : Except Unit (Option Nat))).2.2.fnCount = 1 :=
  ⟨rfl, fun h => Option.noConfusion (Except.ok.inj h), rfl⟩

/-- Concrete options with a constant expiration and no policies, used by
the witnesses. -/
def wOpts : KvMemoizeOptions Nat :=
  ⟨ExpireIn.const 60, none, none⟩

/-- Concrete environment of a store miss whose computation returns 4. -/
def wMissEnv : Env Unit Nat :=
  ⟨.ok none, .ok (some 4), .ok ()⟩

/-- Concrete environment of a store hit on the cached value 3. -/
def wHitEnv : Env Unit Nat :=
  ⟨.ok (some 3), .ok (some 4), .ok ()⟩

/-- Concrete environment of a store miss whose computation fails. -/
def wFailEnv : Env Unit Nat :=
  ⟨.ok none, .error (), .ok ()⟩

/-- Concrete environment of a store miss whose computation returns 4 but
whose store write fails. -/
def wSetFailEnv : Env Unit Nat :=
  ⟨.ok none, .ok (some 4), .error ()⟩

/-- Concrete environment of a store miss whose computation returns a
nullish result. -/
def wNullEnv : Env Unit Nat :=
  ⟨.ok none, .ok none, .ok ()⟩

/-- Concrete empty store. -/
def wStore : Store Nat :=
  fun _ => none

/-- C1 (witness): two concurrent calls on a fresh engine share one
promise and only the first runs the factory. -/
theorem concurrent_calls_coalesce_witness :
    (invokeN ⟨[], 0⟩ [] 2).1 = (0, true) :: List.replicate 1 (0, false) :=
  (concurrent_calls_coalesce ⟨[], 0⟩ [] [] rfl rfl 2 (by decide) wOpts [] wMissEnv).1

/-- C5 (witness): settling on the empty engine leaves no entry under the
fingerprint. -/
theorem pending_computation_unique_witness :
    lookupFp (settle ⟨[], 0⟩ []
      (Except.ok none : Except Unit (Option Nat))).inflight [] = none :=
  (pending_computation_unique ⟨[], 0⟩ [] (by simp [keysNodup]) (Except.ok none)).2.2.2.1

/-- C3 (witness): a nullish cached value at a concrete environment skips
`shouldRecalculate` and runs the computation. -/
theorem nullish_sentinel_witness :
    (runFactory wOpts [] [] wNullEnv).2.recalcCount = 0 ∧
    (runFactory wOpts [] [] wNullEnv).2.fnCount = 1 :=
  (@nullish_sentinel Unit Nat _ wOpts [] []).1 wNullEnv rfl

/-- C4 (witness): a concrete non-nullish hit with no recalculation policy
is returned as is with no computation and no write. -/
theorem hit_and_write_sequence_witness :
    (runFactory wOpts [] [] wHitEnv).1 = .ok (some 3) ∧
    (runFactory wOpts [] [] wHitEnv).2.fnCount = 0 ∧
    (runFactory wOpts [] [] wHitEnv).2.setCount = 0 :=
  (@hit_and_write_sequence Unit Nat wOpts [] []).1 wHitEnv 3 rfl rfl

/-- C6 (witness): a concrete failing computation settles the run with the
failure. -/
theorem computation_failure_witness :
    (runFactory wOpts [] [] wFailEnv).1 = .error () :=
  (computation_failure_propagates wOpts [] [] wFailEnv none () [] ⟨[], 0⟩ rfl rfl rfl
    (by simp [keysNodup])).1

/-- C7 (witness): a concrete failing write settles the run with the write
failure even though the computation returned 4. -/
theorem write_failure_witness :
    (runFactory wOpts [] [] wSetFailEnv).1 = .error () :=
  (write_failure_masks_value wOpts [] [] wSetFailEnv none 4 () rfl rfl rfl rfl rfl).1

/-- C8 (amended, witness): the `expireIn` policy function runs exactly
once on a concrete invocation whose computation yields a nullish
result. -/
theorem expire_policy_witness :
    (runFactory c8opts [] [] c8env).2.expireCount = 1 :=
  (@expire_policy_runs_with_computation Unit Nat c8opts [] []).1 c8env none none rfl rfl rfl

/-- C10 (amended, witness): a run on a concrete store leaves every other
key untouched. -/
theorem store_frame_witness :
    (runFactoryStore wOpts [] [] wStore
      (Except.ok (some 4) : Except Unit (Option Nat))).2.1 [KvKeyPart.bool true] =
      wStore [KvKeyPart.bool true] :=
  (store_frame wOpts [] [] wStore (Except.ok (some 4))).1 [KvKeyPart.bool true] (by decide)

end KvMemoize
